import Mathlib

/-!
Shallow embedding of the MemoBrain core: the log-compaction engine
(`MemoBrainAnthropic._organize` in `src/memobrain_anthropic.py`) and the
temporal knowledge graph (`TemporalReasoningGraph` in
`src/problem_tree_temporal.py`, together with
`TemporalMemoBrain._apply_patch_temporal` in `src/memobrain_temporal.py`).

Python integers become `Nat` (all ids and log indices in the code are
non-negative), `datetime` values become a `Nat` logical clock (comparisons
and ISO round-tripping are faithful), raised exceptions become
`Except`/`Option` error values, and insertion-ordered `dict`s become
association lists with overwrite-on-assignment semantics.
-/

namespace MemoBrain

/-- Python value that is either a `bool` or a `str` (the `active` field of a
node has type `Union[bool, str]`; the code tests it with `is True`). -/
inductive BS where
  | bool : Bool → BS
  | str : String → BS
deriving DecidableEq, Repr

/-- Lookup in an insertion-ordered association list with Python-`dict`
assignment semantics: a later binding of the same key overwrites an earlier
one, so lookup returns the value of the last matching entry. -/
def lastLookup {κ α : Type} [BEq κ] (l : List (κ × α)) (k : κ) : Option α :=
  ((l.filter (fun p => p.1 == k)).getLast?).map Prod.snd

namespace Org

/-- The `thought` content of a node as `_organize` consumes it: either a
Python string together with the fragment list `json.loads` decodes it to
(`none` when decoding to a fragment sequence fails and `json.loads` raises),
or an already-decoded fragment list. -/
inductive OThought (μ : Type) where
  | pstr : Option (List μ) → OThought μ
  | plist : List μ → OThought μ
deriving DecidableEq, Repr

/-- The four node fields `_organize` reads: `active`, `kind`,
`related_turn_ids` and `thought`. -/
structure ONode (μ : Type) where
  active : BS
  kind : String
  related_turn_ids : List Nat
  thought : OThought μ
deriving DecidableEq, Repr

/-- Python `max` over a non-empty list of naturals (`last_tid =
max(related_turn_ids)`; the call site guards non-emptiness). -/
def listMax (l : List Nat) : Nat := l.foldl max 0

/-- Membership in `protected_indices`: `range(min(3, total))` together with,
when `total > 3`, `range(max(3, total - 4), total)`. -/
def isProtected (total idx : Nat) : Bool :=
  decide (idx < min 3 total) ||
    (decide (3 < total) && decide (max 3 (total - 4) ≤ idx) && decide (idx < total))

/-- The replacement branch's decode: `json.loads` inside `try/except` with
`t = []` on failure (a non-string thought is used as is). -/
def decodeOrNil {μ : Type} : OThought μ → List μ
  | .pstr none => []
  | .pstr (some l) => l
  | .plist l => l

/-- Accumulated state of the first pass over `self.graph.nodes.values()`:
`ops_list`, `active_ids` and `summary_dict` (the latter keyed by the
summary's anchor index, assignment overwrites). -/
structure P1 (μ : Type) where
  ops : List (Nat × μ)
  actives : List Nat
  sdict : List (Nat × List μ)
deriving DecidableEq, Repr

/-- One iteration of the first pass. A `summary` node with non-empty
`related_turn_ids` decodes its thought with a bare `json.loads` (no
`try/except`), so an undecodable string raises; an inactive node pairs its
`related_turn_ids` with its decoded fragments positionally (`t[idx]` only
when `len(t) > idx`); an active node with a truthy `kind` contributes its
indices to `active_ids`. -/
def pass1Step {μ : Type} (st : P1 μ) (n : ONode μ) : Except Unit (P1 μ) :=
  if n.kind = "summary" then
    if n.related_turn_ids = [] then .ok st
    else
      match n.thought with
      | .pstr none => .error ()
      | .pstr (some l) =>
          .ok { st with sdict := st.sdict ++ [(listMax n.related_turn_ids, l)] }
      | .plist l =>
          .ok { st with sdict := st.sdict ++ [(listMax n.related_turn_ids, l)] }
  else if n.active ≠ .bool true then
    let t := decodeOrNil n.thought
    .ok { st with
      ops := st.ops ++
        n.related_turn_ids.enum.filterMap (fun p => (t[p.1]?).map (fun m => (p.2, m))) }
  else if n.kind ≠ "" then
    .ok { st with actives := st.actives ++ n.related_turn_ids }
  else .ok st

/-- The whole first pass over the node collection in insertion order. -/
def pass1 {μ : Type} (nodes : List (ONode μ)) : Except Unit (P1 μ) :=
  nodes.foldlM pass1Step ⟨[], [], []⟩

/-- Membership in `summary_turn_ids_to_remove`: some `summary` node names the
index in its `related_turn_ids` and the index is unprotected. -/
def inRemove {μ : Type} (total : Nat) (nodes : List (ONode μ)) (tid : Nat) : Bool :=
  nodes.any (fun n => n.kind == "summary" && n.related_turn_ids.contains tid) &&
    !isProtected total tid

/-- `replace_dict` lookup: the last eligible `ops_list` entry for the index,
eligible iff the index is not in `active_ids`, not protected and not marked
for summary removal (the filter depends only on the index, so the last
overall entry for the index wins, matching dict overwrite). -/
def replaceAt {μ : Type} (total : Nat) (nodes : List (ONode μ)) (st : P1 μ)
    (tid : Nat) : Option μ :=
  if st.actives.contains tid || isProtected total tid || inRemove total nodes tid then none
  else lastLookup st.ops tid

/-- The assembly loop from index `idx` on: splice the summary anchored at the
current index when unprotected, skip indices marked for removal, otherwise
emit the replacement or the original entry. -/
def assembleGo {μ : Type} (total : Nat) (nodes : List (ONode μ)) (st : P1 μ) :
    Nat → List μ → List μ
  | _, [] => []
  | idx, m :: rest =>
      let spliced : List μ :=
        match lastLookup st.sdict idx with
        | some s => if isProtected total idx then [] else s
        | none => []
      let emitted : List μ :=
        if inRemove total nodes idx then []
        else
          match replaceAt total nodes st idx with
          | some r => [r]
          | none => [m]
      spliced ++ emitted ++ assembleGo total nodes st (idx + 1) rest

/-- `MemoBrainAnthropic._organize`, as a function of the node collection (in
insertion order) and the current message log. An error is the exception the
bare `json.loads` of a summary thought raises. -/
def organize {μ : Type} (nodes : List (ONode μ)) (msgs : List μ) : Except Unit (List μ) :=
  match pass1 nodes with
  | .error e => .error e
  | .ok st => .ok (assembleGo msgs.length nodes st 0 msgs)

/-- A node that never triggers the bare `json.loads` of the summary branch:
it is not a summary node, or has no related indices, or its thought decodes. -/
def goodSummary {μ : Type} (n : ONode μ) : Prop :=
  n.kind = "summary" → n.related_turn_ids ≠ [] → n.thought ≠ .pstr none

lemma isProtected_of_le_seven {total j : Nat} (htot : total ≤ 7) (hj : j < total) :
    isProtected total j = true := by
  simp only [isProtected, Bool.or_eq_true, Bool.and_eq_true, decide_eq_true_eq]
  omega

lemma pass1Step_ok {μ : Type} (st : P1 μ) (n : ONode μ) (h : goodSummary n) :
    ∃ st', pass1Step st n = .ok st' := by
  unfold pass1Step
  split
  · split
    · exact ⟨st, rfl⟩
    · rename_i hk hr
      split
      · rename_i heq
        exact absurd heq (h hk hr)
      · exact ⟨_, rfl⟩
      · exact ⟨_, rfl⟩
  · split
    · exact ⟨_, rfl⟩
    · split
      · exact ⟨_, rfl⟩
      · exact ⟨st, rfl⟩

lemma foldlM_pass1_ok {μ : Type} :
    ∀ (nodes : List (ONode μ)) (init : P1 μ),
      (∀ n ∈ nodes, goodSummary n) →
      ∃ st, nodes.foldlM pass1Step init = .ok st := by
  intro nodes
  induction nodes with
  | nil => exact fun init _ => ⟨init, rfl⟩
  | cons n rest ih =>
    intro init h
    obtain ⟨st1, hst1⟩ := pass1Step_ok init n (h n (List.mem_cons_self n rest))
    obtain ⟨st2, hst2⟩ := ih st1 (fun x hx => h x (List.mem_cons_of_mem _ hx))
    refine ⟨st2, ?_⟩
    rw [List.foldlM_cons, hst1]
    simpa using hst2

lemma assembleGo_of_protected {μ : Type} (total : Nat) (nodes : List (ONode μ))
    (st : P1 μ) :
    ∀ (msgs : List μ) (idx : Nat),
      (∀ j, idx ≤ j → j < idx + msgs.length → isProtected total j = true) →
      assembleGo total nodes st idx msgs = msgs := by
  intro msgs
  induction msgs with
  | nil => intro idx _; rfl
  | cons m rest ih =>
    intro idx h
    have hp : isProtected total idx = true :=
      h idx le_rfl (by simp only [List.length_cons]; omega)
    have hrest : ∀ j, idx + 1 ≤ j → j < (idx + 1) + rest.length →
        isProtected total j = true := by
      intro j h1 h2
      exact h j (by omega) (by simp only [List.length_cons]; omega)
    cases hs : lastLookup st.sdict idx <;>
      simp [assembleGo, hs, hp, inRemove, replaceAt, ih _ hrest]

lemma organize_eq_self_of_le_seven {μ : Type} (nodes : List (ONode μ)) (msgs : List μ)
    (hgood : ∀ n ∈ nodes, goodSummary n) (hlen : msgs.length ≤ 7) :
    organize nodes msgs = .ok msgs := by
  obtain ⟨st, hst⟩ := foldlM_pass1_ok nodes ⟨[], [], []⟩ hgood
  unfold organize pass1
  rw [hst]
  exact congrArg Except.ok
    (assembleGo_of_protected _ _ _ msgs 0
      (fun j _ h2 => isProtected_of_le_seven hlen (by omega)))

/-- Claim C1 counterexample: with a 5-entry log, every index lies in the
protected boundary window, so the Inactive node's replacement at index 2 is
suppressed: the output keeps the original entry, which differs from
`"replaced"`. -/
theorem inactive_replacement_log5_cex :
    organize [⟨.bool false, "evidence", [2], .plist ["replaced"]⟩]
        (["a", "b", "c", "d", "e"] : List String) = .ok ["a", "b", "c", "d", "e"] ∧
      ("c" : String) ≠ "replaced" :=
  ⟨rfl, by decide⟩

/-- Claim C1 (amended): for a log of 5 entries and a graph with one Inactive
node with related index 2 and a single replacement fragment, compaction
returns the log unchanged (length 5, every entry at its original value):
the protection window covers all five indices and suppresses the
replacement. -/
theorem inactive_replacement_log5_unchanged {μ : Type} (r : μ) (msgs : List μ)
    (hlen : msgs.length = 5) :
    organize [⟨.bool false, "evidence", [2], .plist [r]⟩] msgs = .ok msgs :=
  organize_eq_self_of_le_seven _ _
    (by
      intro n hn
      simp only [List.mem_singleton] at hn
      subst hn
      intro hk
      simp at hk)
    (by omega)

/-- Witness for `inactive_replacement_log5_unchanged` at a concrete log. -/
theorem inactive_replacement_log5_unchanged_witness :
    organize [⟨.bool false, "evidence", [2], .plist ["replaced"]⟩]
        (["a", "b", "c", "d", "e"] : List String) = .ok ["a", "b", "c", "d", "e"] :=
  inactive_replacement_log5_unchanged "replaced" ["a", "b", "c", "d", "e"] rfl

/-- Claim C2: for a log of 12 entries and a graph with one summary node with
related indices [4, 5] and a single content fragment, compaction splices the
fragment immediately before the position of original entry 5 and removes
original entries 4 and 5. -/
theorem summary_fold_log12 {μ : Type} (frag : μ) (msgs : List μ)
    (hlen : msgs.length = 12) :
    organize [⟨.bool true, "summary", [4, 5], .plist [frag]⟩] msgs
      = .ok (msgs.take 4 ++ frag :: msgs.drop 6) := by
  rcases msgs with _ | ⟨m0, msgs⟩; · simp at hlen
  rcases msgs with _ | ⟨m1, msgs⟩; · simp at hlen
  rcases msgs with _ | ⟨m2, msgs⟩; · simp at hlen
  rcases msgs with _ | ⟨m3, msgs⟩; · simp at hlen
  rcases msgs with _ | ⟨m4, msgs⟩; · simp at hlen
  rcases msgs with _ | ⟨m5, msgs⟩; · simp at hlen
  rcases msgs with _ | ⟨m6, msgs⟩; · simp at hlen
  rcases msgs with _ | ⟨m7, msgs⟩; · simp at hlen
  rcases msgs with _ | ⟨m8, msgs⟩; · simp at hlen
  rcases msgs with _ | ⟨m9, msgs⟩; · simp at hlen
  rcases msgs with _ | ⟨m10, msgs⟩; · simp at hlen
  rcases msgs with _ | ⟨m11, msgs⟩; · simp at hlen
  rcases msgs with _ | ⟨m12, msgs⟩
  · rfl
  · simp [List.length_cons] at hlen

/-- Witness for `summary_fold_log12` at a concrete log. -/
theorem summary_fold_log12_witness :
    organize [⟨.bool true, "summary", [4, 5], .plist ["FRAG"]⟩]
        (["m0", "m1", "m2", "m3", "m4", "m5", "m6", "m7", "m8", "m9", "m10", "m11"] :
          List String)
      = .ok ["m0", "m1", "m2", "m3", "FRAG", "m6", "m7", "m8", "m9", "m10", "m11"] :=
  summary_fold_log12 "FRAG"
    ["m0", "m1", "m2", "m3", "m4", "m5", "m6", "m7", "m8", "m9", "m10", "m11"] rfl

lemma pass1Step_bad_inactive {μ : Type} (st : P1 μ) (a : BS) (k : String)
    (rel : List Nat) (ha : a ≠ .bool true) (hk : k ≠ "summary") :
    pass1Step st ⟨a, k, rel, .pstr none⟩ = .ok st := by
  have hnil : rel.enum.filterMap (fun p => (none : Option (Nat × μ))) = [] := by simp
  unfold pass1Step
  simp [hk, ha, decodeOrNil, hnil]

lemma inRemove_middle {μ : Type} (total : Nat) (l1 l2 : List (ONode μ))
    (bad : ONode μ) (hk : bad.kind ≠ "summary") (tid : Nat) :
    inRemove total (l1 ++ bad :: l2) tid = inRemove total (l1 ++ l2) tid := by
  have hk' : (bad.kind == "summary") = false := beq_eq_false_iff_ne.mpr hk
  simp [inRemove, List.any_append, List.any_cons, hk']

lemma assembleGo_congr_nodes {μ : Type} (total : Nat)
    (nodes nodes' : List (ONode μ)) (st : P1 μ)
    (h : ∀ tid, inRemove total nodes tid = inRemove total nodes' tid) :
    ∀ (idx : Nat) (msgs : List μ),
      assembleGo total nodes st idx msgs = assembleGo total nodes' st idx msgs := by
  intro idx msgs
  induction msgs generalizing idx with
  | nil => rfl
  | cons m rest ih => simp [assembleGo, replaceAt, h, ih]

/-- Claim C5 counterexample: a summary node whose string content fails to
decode makes `_organize` raise (the summary branch calls `json.loads`
without a `try/except`), aborting the whole compaction pass instead of
degrading to pass-through. -/
theorem malformed_summary_aborts_compaction :
    organize [⟨.bool true, "summary", [0], .pstr none⟩] (["a"] : List String)
        = .error () ∧
      (organize [⟨.bool true, "summary", [0], .pstr none⟩]
          (["a"] : List String)).toOption = none :=
  ⟨rfl, rfl⟩

/-- Claim C5 (amended): only replacement content degrades gracefully: an
Inactive, non-summary node whose string content fails to decode contributes
nothing — removing it from the graph leaves the compaction result (on every
log) unchanged, so its entries pass through. (Malformed summary content, by
contrast, aborts the pass, see the counterexample.) -/
theorem undecodable_inactive_node_is_noop {μ : Type} (l1 l2 : List (ONode μ))
    (msgs : List μ) (a : BS) (k : String) (rel : List Nat)
    (ha : a ≠ .bool true) (hk : k ≠ "summary") :
    organize (l1 ++ ⟨a, k, rel, .pstr none⟩ :: l2) msgs = organize (l1 ++ l2) msgs := by
  have hsplit : ∀ init : P1 μ,
      (l1 ++ (⟨a, k, rel, .pstr none⟩ : ONode μ) :: l2).foldlM pass1Step init
        = (l1 ++ l2).foldlM pass1Step init := by
    intro init
    rw [List.foldlM_append, List.foldlM_append]
    apply bind_congr
    intro st
    rw [List.foldlM_cons, pass1Step_bad_inactive st a k rel ha hk]
    rfl
  unfold organize pass1
  rw [hsplit]
  cases hres : (l1 ++ l2).foldlM pass1Step (⟨[], [], []⟩ : P1 μ) with
  | error e => rfl
  | ok st =>
    exact congrArg Except.ok
      (assembleGo_congr_nodes _ _ _ st
        (inRemove_middle _ l1 l2 _ hk) 0 msgs)

/-- Witness for `undecodable_inactive_node_is_noop` at a concrete graph. -/
theorem undecodable_inactive_node_is_noop_witness :
    organize ([] ++ (⟨.bool false, "evidence", [5], .pstr none⟩ : ONode String) ::
          [⟨.bool true, "task", [2], .plist ["y"]⟩])
        ["m0", "m1", "m2", "m3", "m4", "m5", "m6", "m7", "m8", "m9", "m10", "m11"]
      = organize ([] ++ [⟨.bool true, "task", [2], .plist ["y"]⟩])
        ["m0", "m1", "m2", "m3", "m4", "m5", "m6", "m7", "m8", "m9", "m10", "m11"] :=
  undecodable_inactive_node_is_noop [] [⟨.bool true, "task", [2], .plist ["y"]⟩]
    _ (.bool false) "evidence" [5] (by decide) (by decide)

/-- Total number of fragments held by `summary_dict`. -/
def sdictTotal {μ : Type} (l : List (Nat × List μ)) : Nat :=
  (l.map (fun p => p.2.length)).sum

/-- Number of fragments held by `summary_dict` entries at keys `≥ i` (the
entries the assembly loop can still splice from index `i` on). -/
def spliceWeight {μ : Type} (i : Nat) (l : List (Nat × List μ)) : Nat :=
  ((l.filter (fun p => decide (i ≤ p.1))).map (fun p => p.2.length)).sum

/-- Total fragment count contributed to `summary_dict` by the node
collection: each summary node with non-empty related indices contributes the
length of its decoded content. -/
def summaryBound {μ : Type} (nodes : List (ONode μ)) : Nat :=
  (nodes.map (fun n =>
    if n.kind = "summary" ∧ n.related_turn_ids ≠ [] then (decodeOrNil n.thought).length
    else 0)).sum

lemma spliceWeight_succ_le {μ : Type} (i : Nat) (l : List (Nat × List μ)) :
    spliceWeight (i + 1) l ≤ spliceWeight i l := by
  induction l with
  | nil => exact le_rfl
  | cons p rest ih =>
    unfold spliceWeight at *
    by_cases h1 : i + 1 ≤ p.1
    · have h1' : decide (i + 1 ≤ p.1) = true := by simpa using h1
      have h2' : decide (i ≤ p.1) = true := by simp; omega
      simp only [List.filter_cons, h1', h2', if_true, List.map_cons, List.sum_cons]
      omega
    · by_cases h2 : i ≤ p.1
      · have h1' : decide (i + 1 ≤ p.1) = false := by simpa using h1
        have h2' : decide (i ≤ p.1) = true := by simpa using h2
        simp only [List.filter_cons, h1', h2', if_true, Bool.false_eq_true, if_false,
          List.map_cons, List.sum_cons]
        omega
      · have h1' : decide (i + 1 ≤ p.1) = false := by simpa using h1
        have h2' : decide (i ≤ p.1) = false := by simpa using h2
        simp only [List.filter_cons, h1', h2', Bool.false_eq_true, if_false]
        exact ih

lemma spliceWeight_split {μ : Type} (i : Nat) (l : List (Nat × List μ)) :
    spliceWeight i l =
      ((l.filter (fun p => p.1 == i)).map (fun p => p.2.length)).sum +
        spliceWeight (i + 1) l := by
  induction l with
  | nil => rfl
  | cons p rest ih =>
    unfold spliceWeight at *
    rcases Nat.lt_trichotomy p.1 i with h | h | h
    · have h1 : decide (i ≤ p.1) = false := by simp; omega
      have h2 : decide (i + 1 ≤ p.1) = false := by simp; omega
      have h3 : (p.1 == i) = false := by simp; omega
      simp only [List.filter_cons, h1, h2, h3, Bool.false_eq_true, if_false]
      exact ih
    · have h1 : decide (i ≤ p.1) = true := by simp; omega
      have h2 : decide (i + 1 ≤ p.1) = false := by simp; omega
      have h3 : (p.1 == i) = true := by simpa using h
      simp only [List.filter_cons, h1, h2, h3, if_true, Bool.false_eq_true, if_false,
        List.map_cons, List.sum_cons]
      omega
    · have h1 : decide (i ≤ p.1) = true := by simp; omega
      have h2 : decide (i + 1 ≤ p.1) = true := by simp; omega
      have h3 : (p.1 == i) = false := by simp; omega
      simp only [List.filter_cons, h1, h2, h3, if_true, Bool.false_eq_true, if_false,
        List.map_cons, List.sum_cons]
      omega

lemma lastLookup_le_sliceSum {μ : Type} (l : List (Nat × List μ)) (i : Nat)
    (s : List μ) (h : lastLookup l i = some s) :
    s.length ≤ ((l.filter (fun p => p.1 == i)).map (fun p => p.2.length)).sum := by
  unfold lastLookup at h
  cases hg : (l.filter (fun p => p.1 == i)).getLast? with
  | none => rw [hg] at h; simp at h
  | some y =>
    rw [hg] at h
    have hy : y.2 = s := by simpa using h
    have hmem : y ∈ l.filter (fun p => p.1 == i) := List.mem_of_mem_getLast? hg
    have : y.2.length ∈ (l.filter (fun p => p.1 == i)).map (fun p => p.2.length) :=
      List.mem_map_of_mem _ hmem
    rw [hy] at this
    exact List.single_le_sum (fun x _ => Nat.zero_le x) _ this

lemma spliceWeight_le_sdictTotal {μ : Type} (i : Nat) (l : List (Nat × List μ)) :
    spliceWeight i l ≤ sdictTotal l :=
  List.Sublist.sum_le_sum
    (List.Sublist.map _ (List.filter_sublist l)) (fun a _ => Nat.zero_le a)

lemma assembleGo_length_le {μ : Type} (total : Nat) (nodes : List (ONode μ))
    (st : P1 μ) :
    ∀ (msgs : List μ) (idx : Nat),
      (assembleGo total nodes st idx msgs).length ≤
        msgs.length + spliceWeight idx st.sdict := by
  intro msgs
  induction msgs with
  | nil => intro idx; simp [assembleGo]
  | cons m rest ih =>
    intro idx
    have hem : (if inRemove total nodes idx then ([] : List μ)
        else match replaceAt total nodes st idx with
          | some r => [r]
          | none => [m]).length ≤ 1 := by
      split
      · simp
      · split <;> simp
    have hrec := ih (idx + 1)
    cases hs : lastLookup st.sdict idx with
    | none =>
      have hmono := spliceWeight_succ_le idx st.sdict
      simp only [assembleGo, hs, List.nil_append, List.length_append, List.length_cons]
      omega
    | some s =>
      have hsp : (if isProtected total idx then ([] : List μ) else s).length ≤
          s.length := by split <;> simp
      have hslice := lastLookup_le_sliceSum st.sdict idx s hs
      have hsplit := spliceWeight_split idx st.sdict
      simp only [assembleGo, hs, List.length_append, List.length_cons]
      omega

lemma pass1Step_sdictTotal {μ : Type} (st st' : P1 μ) (n : ONode μ)
    (h : pass1Step st n = .ok st') :
    sdictTotal st'.sdict ≤ sdictTotal st.sdict +
      (if n.kind = "summary" ∧ n.related_turn_ids ≠ [] then
        (decodeOrNil n.thought).length else 0) := by
  unfold pass1Step at h
  split at h
  · rename_i hk
    split at h
    · rename_i hr
      cases h
      simp [hk, hr]
    · rename_i hr
      split at h
      · exact absurd h (by simp)
      · rename_i l heq
        cases h
        simp [sdictTotal, hk, hr, heq, decodeOrNil]
      · rename_i l heq
        cases h
        simp [sdictTotal, hk, hr, heq, decodeOrNil]
  · split at h
    · cases h; simp
    · split at h
      · cases h; simp
      · cases h; simp

lemma foldlM_pass1_sdictTotal {μ : Type} :
    ∀ (nodes : List (ONode μ)) (init st : P1 μ),
      nodes.foldlM pass1Step init = .ok st →
      sdictTotal st.sdict ≤ sdictTotal init.sdict + summaryBound nodes := by
  intro nodes
  induction nodes with
  | nil =>
    intro init st h
    cases h
    simp [summaryBound]
  | cons n rest ih =>
    intro init st h
    rw [List.foldlM_cons] at h
    cases h1 : pass1Step init n with
    | error e => rw [h1] at h; exact absurd h (by simp [Bind.bind, Except.bind])
    | ok st1 =>
      rw [h1] at h
      have h' : rest.foldlM pass1Step st1 = .ok st := h
      have hstep := pass1Step_sdictTotal init st1 n h1
      have hrest := ih st1 st h'
      simp only [summaryBound, List.map_cons, List.sum_cons] at *
      omega

/-- Claim C6 counterexample: a summary node with five content fragments
anchored at a single removable index grows a 12-entry log to 16 entries, so
compaction output is not always shorter than or equal to the original. -/
theorem compaction_can_lengthen_log :
    (organize [⟨.bool true, "summary", [5], .plist ["s1", "s2", "s3", "s4", "s5"]⟩]
          (["m0", "m1", "m2", "m3", "m4", "m5", "m6", "m7", "m8", "m9", "m10", "m11"] :
            List String)).map List.length = .ok 16 ∧
      ¬ (16 : Nat) ≤ 12 :=
  ⟨rfl, by decide⟩

/-- Claim C6 (amended): the compaction output is bounded by the original
length plus the total fragment count of summary-node contents; it can exceed
the original length only through summary splices (see the counterexample),
and without summary content it never does. -/
theorem organize_length_bound {μ : Type} (nodes : List (ONode μ)) (msgs : List μ)
    (out : List μ) (h : organize nodes msgs = .ok out) :
    out.length ≤ msgs.length + summaryBound nodes := by
  unfold organize at h
  cases hp : pass1 nodes with
  | error e => rw [hp] at h; exact absurd h (by simp)
  | ok st =>
    rw [hp] at h
    have hout : out = assembleGo msgs.length nodes st 0 msgs := by
      injection h with h
      exact h.symm
    have h1 := assembleGo_length_le msgs.length nodes st msgs 0
    have h2 := spliceWeight_le_sdictTotal 0 st.sdict
    have h3 : sdictTotal st.sdict ≤ 0 + summaryBound nodes :=
      foldlM_pass1_sdictTotal nodes ⟨[], [], []⟩ st hp
    rw [hout]
    omega

/-- Witness for `organize_length_bound` at the counterexample input: the
16-entry output is within the bound 12 + 5. -/
theorem organize_length_bound_witness :
    (["m0", "m1", "m2", "m3", "m4", "s1", "s2", "s3", "s4", "s5", "m6", "m7", "m8",
        "m9", "m10", "m11"] : List String).length ≤
      (["m0", "m1", "m2", "m3", "m4", "m5", "m6", "m7", "m8", "m9", "m10", "m11"] :
          List String).length +
        summaryBound [⟨.bool true, "summary", [5], .plist ["s1", "s2", "s3", "s4", "s5"]⟩] :=
  organize_length_bound
    [⟨.bool true, "summary", [5], .plist ["s1", "s2", "s3", "s4", "s5"]⟩]
    ["m0", "m1", "m2", "m3", "m4", "m5", "m6", "m7", "m8", "m9", "m10", "m11"]
    ["m0", "m1", "m2", "m3", "m4", "s1", "s2", "s3", "s4", "s5", "m6", "m7", "m8",
      "m9", "m10", "m11"] rfl

end Org

namespace Temporal

/-- Kinds of Python exception raised by the temporal store (`ValueError` at
both raise sites; `ReferenceError` exists in the taxonomy for comparison). -/
inductive PyErr where
  | valueError
  | referenceError
deriving DecidableEq, Repr

/-- `TemporalReasoningNode`: `created_at` is a `Nat` logical timestamp
(`datetime` values round-trip through ISO strings without loss, so
serialization is the identity on this field). -/
structure Node where
  node_id : Nat
  kind : String
  thought : String
  related_turn_ids : List Nat
  active : BS
  created_at : Nat
  session_id : String
  version : Nat
  supersedes : List Nat
  superseded_by : Option Nat
  tags : List String
  participant : String
deriving DecidableEq, Repr

/-- `TemporalEdge`. -/
structure Edge where
  src : Nat
  dst : Nat
  rationale : String
  created_at : Nat
  created_by : String
deriving DecidableEq, Repr

/-- `TemporalReasoningGraph`: `nodes` is the insertion-ordered dict
`Dict[int, TemporalReasoningNode]` (keyed by each node's `node_id`), and
`counter` is the state of `itertools.count` — the next id it will yield. -/
structure Graph where
  nodes : List Node
  edges : List Edge
  counter : Nat
  session_id : String
  created_at : Nat
deriving DecidableEq, Repr

/-- A fresh graph as built by `__init__`: empty collections and
`itertools.count(1)`. -/
def initGraph (session_id : String) (now : Nat) : Graph :=
  { nodes := [], edges := [], counter := 1, session_id := session_id, created_at := now }

/-- Python `node_id in self.nodes` (dict key membership). -/
def hasNode (g : Graph) (i : Nat) : Bool :=
  g.nodes.any (fun n => n.node_id == i)

/-- Python `self.nodes[i]` read (dict keys are unique, so the first entry
with the key is the entry). -/
def lookupNode (g : Graph) (i : Nat) : Option Node :=
  g.nodes.find? (fun n => n.node_id == i)

/-- The loop in `add_node` that sets `superseded_by` on every existing node
listed in `supersedes`. -/
def markSuperseded (newId : Nat) (ids : List Nat) (nodes : List Node) : List Node :=
  nodes.map (fun n =>
    if n.node_id ∈ ids then { n with superseded_by := some newId } else n)

/-- Python dict assignment `self.nodes[k] = x`: overwrite in place when the
key exists, append otherwise. -/
def dictInsert (nodes : List Node) (x : Node) : List Node :=
  if nodes.any (fun n => n.node_id == x.node_id) then
    nodes.map (fun n => if n.node_id == x.node_id then x else n)
  else nodes ++ [x]

/-- `TemporalReasoningGraph.add_node`: allocates the next id, stamps
`created_at = now` and the graph's session, marks superseded nodes, and
stores the node. Returns the updated graph and the new node. -/
def addNode (g : Graph) (now : Nat) (kind thought : String) (related : List Nat)
    (tags : List String) (participant : String) (supersedes : List Nat) :
    Graph × Node :=
  let node : Node :=
    { node_id := g.counter, kind := kind, thought := thought,
      related_turn_ids := related, active := .bool true, created_at := now,
      session_id := g.session_id, version := 1, supersedes := supersedes,
      superseded_by := none, tags := tags, participant := participant }
  let marked := markSuperseded node.node_id supersedes g.nodes
  ({ g with nodes := dictInsert marked node, counter := g.counter + 1 }, node)

/-- `TemporalReasoningGraph.add_edge`: raises `ValueError` when either
endpoint is not a known node id (the graph is untouched in that case, since
the raise precedes the append); otherwise appends the edge. -/
def addEdge (g : Graph) (now : Nat) (src dst : Nat) (rationale created_by : String) :
    Graph × Except PyErr Edge :=
  if hasNode g src && hasNode g dst then
    let e : Edge :=
      { src := src, dst := dst, rationale := rationale, created_at := now,
        created_by := created_by }
    ({ g with edges := g.edges ++ [e] }, .ok e)
  else (g, .error .valueError)

/-- One step of the edge-copy loop of `supersede_node`: every edge incoming
to the old node is replayed toward the new node, with a carried-over marker
on the rationale. The Python loop iterates `self.edges` while appending to
it; the appended edges have `dst` equal to the new node's id, which differs
from `old_id` whenever all stored ids are below the allocator, so folding
over the snapshot of the edge list is equivalent there. An `add_edge`
failure inside the loop propagates (carried error), keeping the mutations
made so far. -/
def copyStep (now old_id newNodeId : Nat) (participant : String)
    (acc : Graph × Option PyErr) (e : Edge) : Graph × Option PyErr :=
  match acc.2 with
  | some _ => acc
  | none =>
    if e.dst == old_id then
      let q := addEdge acc.1 now e.src newNodeId ("[superseded] " ++ e.rationale)
        participant
      (q.1, match q.2 with | .ok _ => none | .error er => some er)
    else acc

/-- `TemporalReasoningGraph.supersede_node` proper: raises `ValueError` when
the old id is unknown; otherwise creates the replacement node and runs the
edge-copy loop (`copyStep`) over the snapshot of the edge list. -/
def supersedeNode (g : Graph) (now : Nat) (old_id : Nat)
    (new_thought participant : String) : Graph × Except PyErr Node :=
  match lookupNode g old_id with
  | none => (g, .error .valueError)
  | some old =>
    let p := addNode g now old.kind new_thought [] old.tags participant [old_id]
    let st := g.edges.foldl (copyStep now old_id p.2.node_id participant)
      (p.1, (none : Option PyErr))
    match st.2 with
    | some er => (st.1, .error er)
    | none => (st.1, .ok p.2)

/-- `get_active_nodes`: nodes with `active is True` that are not
superseded. -/
def getActiveNodes (g : Graph) : List Node :=
  g.nodes.filter (fun n =>
    decide (n.active = .bool true) && decide (n.superseded_by = none))

/-- `get_state_at`: nodes created by `t` whose superseding node (when it
exists in the graph) was created after `t`. -/
def getStateAt (g : Graph) (t : Nat) : List Node :=
  (g.nodes.filter (fun n => decide (n.created_at ≤ t))).filter
    (fun n =>
      match n.superseded_by with
      | none => true
      | some j =>
        match lookupNode g j with
        | none => true
        | some sup => decide (t < sup.created_at))

/-- The serialized snapshot built by `to_dict`: node ids are stored as
string-encoded dict keys; `str`/`int` and `datetime`/ISO round trips are
exact, so keys stay `Nat` and timestamps stay `Nat` here. -/
structure GraphData where
  session_id : String
  created_at : Nat
  nodes : List (Nat × Node)
  edges : List Edge
deriving DecidableEq, Repr

/-- `TemporalReasoningGraph.to_dict`. -/
def toDict (g : Graph) : GraphData :=
  { session_id := g.session_id, created_at := g.created_at,
    nodes := g.nodes.map (fun n => (n.node_id, n)), edges := g.edges }

/-- Python `max` over the dict's keys (used on a non-empty node set). -/
def maxKey (l : List (Nat × Node)) : Nat :=
  (l.map Prod.fst).foldl max 0

/-- `TemporalReasoningGraph.from_dict`: rebuilds the collections and, when
the node set is non-empty, reseeds the id allocator to one past the maximum
key; a fresh allocator (`count(1)`) otherwise. -/
def fromDict (d : GraphData) : Graph :=
  { session_id := d.session_id, created_at := d.created_at,
    nodes := d.nodes.map Prod.snd, edges := d.edges,
    counter := if d.nodes.isEmpty then 1 else maxKey d.nodes + 1 }

/-- Arguments of one `add_node` call (with the ambient wall-clock reading it
observes). -/
structure AddReq where
  now : Nat
  kind : String
  thought : String
  related : List Nat
  tags : List String
  participant : String
  supersedes : List Nat
deriving DecidableEq, Repr

/-- One `add_node` call in a sequence: threads the graph and collects the
returned node's id. -/
def addStep (acc : Graph × List Nat) (r : AddReq) : Graph × List Nat :=
  let p := addNode acc.1 r.now r.kind r.thought r.related r.tags
    r.participant r.supersedes
  (p.1, acc.2 ++ [p.2.node_id])

/-- A sequence of `add_node` calls on one graph instance; returns the final
graph and the ids of the returned nodes in call order. -/
def runAdds (g : Graph) (reqs : List AddReq) : Graph × List Nat :=
  reqs.foldl addStep (g, [])

/-- A mutating store operation, for stating facts about every subsequent
state of a graph. On a raised error the graph keeps the mutations made
before the raise (`add_edge` and `supersede_node` raise before mutating
anything only in their unknown-id checks, which leave the graph unchanged;
a failing edge copy inside `supersede_node` keeps the prior mutations — the
step function returns the post-call graph in every case). -/
inductive Op where
  | addNode (now : Nat) (kind thought : String) (related : List Nat)
      (tags : List String) (participant : String) (supersedes : List Nat)
  | addEdge (now : Nat) (src dst : Nat) (rationale created_by : String)
  | supersede (now : Nat) (old_id : Nat) (thought participant : String)
deriving DecidableEq, Repr

/-- The graph state after one operation (error or not). -/
def applyOp (g : Graph) : Op → Graph
  | .addNode now k th r tg p s => (addNode g now k th r tg p s).1
  | .addEdge now s d r cb => (addEdge g now s d r cb).1
  | .supersede now o th p => (supersedeNode g now o th p).1

/-- The graph state after a sequence of operations. -/
def applyOps (g : Graph) (ops : List Op) : Graph :=
  ops.foldl applyOp g

/-- One `add_nodes` entry of an edit batch: a caller-local temporary id plus
the node payload. -/
structure PatchNode where
  tmp_id : String
  kind : String
  thought : String
deriving DecidableEq, Repr

/-- One `add_edges` entry of an edit batch: endpoints are strings that name
either a temporary id of the same batch or a literal node id (the code
normalizes both with `str(...)` first). -/
structure PatchEdge where
  src : String
  dst : String
  rationale : String
deriving DecidableEq, Repr

/-- An edit batch from the external completion service. -/
structure Patch where
  add_nodes : List PatchNode
  add_edges : List PatchEdge
deriving DecidableEq, Repr

/-- One batch-node creation inside `_apply_patch_temporal`: adds the node
and records its temporary id in `tempid2realid` (assignment overwrites a
repeated temporary id; with append-then-last-lookup semantics here). -/
def phase1Step (now : Nat) (related : List Nat) (tags : List String)
    (participant : String) (acc : Graph × List (String × Nat)) (pn : PatchNode) :
    Graph × List (String × Nat) :=
  let p := addNode acc.1 now pn.kind pn.thought related tags participant []
  (p.1, acc.2 ++ [(pn.tmp_id, p.2.node_id)])

/-- The node-creation phase of `TemporalMemoBrain._apply_patch_temporal`. -/
def phase1 (g : Graph) (now : Nat) (patch : Patch) (related : List Nat)
    (tags : List String) (participant : String) : Graph × List (String × Nat) :=
  patch.add_nodes.foldl (phase1Step now related tags participant) (g, [])

/-- Decimal digit accumulation for `parsePyInt`. -/
def digitsToNat? : List Char → Nat → Option Nat
  | [], acc => some acc
  | c :: cs, acc =>
      if c.isDigit then digitsToNat? cs (acc * 10 + (c.toNat - 48)) else none

/-- One concrete reading of Python `int(...)` on an id string: the number
for a non-empty run of ASCII digits, a raise (`none`) otherwise. It agrees
with Python on every string that is a plain ASCII digit run and on every
string containing a character that is neither a digit, a sign, an
underscore nor whitespace (Python rejects those too); it is narrower than
Python on exotic literals such as `" 7 "`, `"+7"`, `"1_0"` or non-ASCII
decimal digits. It is used only to instantiate the opaque `pyInt`
parameter below on concrete inputs where the two agree. -/
def parsePyInt (s : String) : Option Nat :=
  match s.data with
  | [] => none
  | cs => digitsToNat? cs 0

/-- Endpoint resolution in `_apply_patch_temporal`: a temporary id from the
batch map wins; otherwise the string goes through Python `int(...)`,
modeled by the opaque parameter `pyInt` (the builtin is outside this
repository): `pyInt s = some n` when `int(s)` returns the non-negative
`n`, and `none` when `int(s)` raises `ValueError` or returns a negative
number — in the latter case the negative id is unknown to the store and
`add_edge` raises the same `ValueError` before mutating anything, so the
observable pair (store state, raised error) is identical. -/
def resolveId (pyInt : String → Option Nat) (m : List (String × Nat))
    (s : String) : Option Nat :=
  match lastLookup m s with
  | some i => some i
  | none => pyInt s

/-- One `add_edges` entry application inside `_apply_patch_temporal`: once a
raise has happened the remaining entries are never reached (the exception
aborts the loop), modeled by carrying the error through unchanged. -/
def edgeStep (pyInt : String → Option Nat) (now : Nat) (participant : String)
    (m : List (String × Nat)) (acc : Graph × Option PyErr) (pe : PatchEdge) :
    Graph × Option PyErr :=
  match acc.2 with
  | some _ => acc
  | none =>
    match resolveId pyInt m pe.src with
    | none => (acc.1, some .valueError)
    | some s =>
      match resolveId pyInt m pe.dst with
      | none => (acc.1, some .valueError)
      | some d =>
        let q := addEdge acc.1 now s d pe.rationale participant
        (q.1, match q.2 with | .ok _ => none | .error er => some er)

/-- `TemporalMemoBrain._apply_patch_temporal` (parameterized over the
`int(...)` semantics `pyInt`): nodes first, then edges; the first failing
edge (unresolvable endpoint or unknown literal id) raises `ValueError`,
leaving every mutation made so far in place. -/
def applyPatchTemporal (pyInt : String → Option Nat) (g : Graph) (now : Nat)
    (patch : Patch) (related : List Nat) (tags : List String)
    (participant : String) : Graph × Option PyErr :=
  let st1 := phase1 g now patch related tags participant
  patch.add_edges.foldl (edgeStep pyInt now participant st1.2) (st1.1, none)

/-- Claim C9 counterexample: `add_edge` on an unknown endpoint raises
`ValueError` (the raise site is `raise ValueError(...)`), not
`ReferenceError`. -/
theorem add_edge_unknown_id_cex :
    (addEdge (initGraph "s" 0) 3 1 2 "" "sys").2 = .error .valueError ∧
      PyErr.valueError ≠ PyErr.referenceError :=
  ⟨rfl, by decide⟩

/-- Claim C9 (amended): `add_edge` with an endpoint that is not a known node
id raises `ValueError` and returns the graph unchanged — in particular its
edge sequence is untouched, since the raise precedes the append. -/
theorem add_edge_unknown_id_fails (g : Graph) (now src dst : Nat) (r cb : String)
    (h : hasNode g src = false ∨ hasNode g dst = false) :
    addEdge g now src dst r cb = (g, .error .valueError) ∧
      (addEdge g now src dst r cb).1.edges = g.edges := by
  have hmain : addEdge g now src dst r cb = (g, .error .valueError) := by
    unfold addEdge
    rcases h with h | h <;> simp [h]
  exact ⟨hmain, by rw [hmain]⟩

/-- Witness for `add_edge_unknown_id_fails` on an empty graph. -/
theorem add_edge_unknown_id_fails_witness :
    addEdge (initGraph "s" 0) 3 1 2 "" "sys" = (initGraph "s" 0, .error .valueError) ∧
      (addEdge (initGraph "s" 0) 3 1 2 "" "sys").1.edges = (initGraph "s" 0).edges :=
  add_edge_unknown_id_fails (initGraph "s" 0) 3 1 2 "" "sys" (Or.inl rfl)

/-- A graph holding one flushed (Inactive) node, as a save/reload can
produce: `get_state_at` ignores the `active` flag, `get_active_nodes` does
not. -/
def gInactive : Graph :=
  { nodes := [⟨1, "evidence", "x", [], .bool false, 0, "s", 1, [], none, [], "system"⟩],
    edges := [], counter := 2, session_id := "s", created_at := 0 }

/-- Claim C8 counterexample: with one Inactive, non-superseded node created
at time 0, `get_state_at(5)` returns that node while `get_active_nodes()`
is empty, although 5 is later than every creation and supersession. -/
theorem get_state_at_cex :
    gInactive.nodes.all (fun n => decide (n.created_at ≤ 5)) = true ∧
      getStateAt gInactive 5 ≠ getActiveNodes gInactive :=
  ⟨rfl, by decide⟩

/-- Claim C8 (amended): `get_state_at(T)` is empty for `T` before every
node's creation; and it equals `get_active_nodes()` for `T` after every
creation, provided every node's state is Active and every `superseded_by`
pointer refers to a node present in the graph (`get_state_at` never checks
the `active` flag, so an Inactive node breaks the unconditional claim, see
the counterexample). -/
theorem get_state_at_boundary (g : Graph) (t1 t2 : Nat)
    (h1 : ∀ n ∈ g.nodes, t1 < n.created_at)
    (hact : ∀ n ∈ g.nodes, n.active = .bool true)
    (hsup : ∀ n ∈ g.nodes, n.superseded_by.all (fun j => hasNode g j) = true)
    (h2 : ∀ n ∈ g.nodes, n.created_at ≤ t2) :
    getStateAt g t1 = [] ∧ getStateAt g t2 = getActiveNodes g := by
  constructor
  · unfold getStateAt
    have hnil : g.nodes.filter (fun n => decide (n.created_at ≤ t1)) = [] := by
      rw [List.filter_eq_nil_iff]
      intro n hn
      have := h1 n hn
      simp only [decide_eq_true_eq]
      omega
    rw [hnil]
    rfl
  · unfold getStateAt getActiveNodes
    have hfull : g.nodes.filter (fun n => decide (n.created_at ≤ t2)) = g.nodes := by
      rw [List.filter_eq_self]
      intro n hn
      simpa using h2 n hn
    rw [hfull]
    apply List.filter_congr
    intro n hn
    have ha := hact n hn
    cases hsb : n.superseded_by with
    | none => simp [ha, hsb]
    | some j =>
      have hj : hasNode g j = true := by
        have := hsup n hn
        rw [hsb] at this
        simpa using this
      cases hl : lookupNode g j with
      | none =>
        exfalso
        unfold lookupNode at hl
        rw [List.find?_eq_none] at hl
        unfold hasNode at hj
        rw [List.any_eq_true] at hj
        obtain ⟨x, hx, hpx⟩ := hj
        exact hl x hx hpx
      | some sup =>
        have hsm : sup ∈ g.nodes := List.mem_of_find?_eq_some hl
        have hc : sup.created_at ≤ t2 := h2 sup hsm
        have hdec : decide (t2 < sup.created_at) = false := by
          simp only [decide_eq_false_iff_not, not_lt]
          omega
        simp [ha, hsb, hl, hdec]

/-- A graph with an already-superseded node 1 and its active replacement 2,
for the witness below. -/
def gW : Graph :=
  { nodes := [⟨1, "evidence", "a", [], .bool true, 1, "s", 1, [], some 2, [], "system"⟩,
      ⟨2, "evidence", "b", [], .bool true, 2, "s", 1, [1], none, [], "system"⟩],
    edges := [], counter := 3, session_id := "s", created_at := 0 }

/-- Witness for `get_state_at_boundary` at a concrete graph. -/
theorem get_state_at_boundary_witness :
    getStateAt gW 0 = [] ∧ getStateAt gW 10 = getActiveNodes gW :=
  get_state_at_boundary gW 0 10 (by decide) (by decide) (by decide) (by decide)

/-- The dict keys of a node collection, in insertion order. -/
def keysOf (nodes : List Node) : List Nat := nodes.map Node.node_id

lemma keysOf_markSuperseded (newId : Nat) (ids : List Nat) (nodes : List Node) :
    keysOf (markSuperseded newId ids nodes) = keysOf nodes := by
  unfold keysOf markSuperseded
  rw [List.map_map]
  apply List.map_congr_left
  intro n _
  by_cases h : n.node_id ∈ ids <;> simp [h]

lemma addNode_keys (g : Graph) (now : Nat) (k th : String) (rel : List Nat)
    (tags : List String) (part : String) (sup : List Nat)
    (h : ∀ i ∈ keysOf g.nodes, i < g.counter) :
    keysOf (addNode g now k th rel tags part sup).1.nodes
      = keysOf g.nodes ++ [g.counter] := by
  have hany : (markSuperseded g.counter sup g.nodes).any
      (fun n => n.node_id == g.counter) = false := by
    rw [List.any_eq_false]
    intro x hx
    have hxk : x.node_id ∈ keysOf (markSuperseded g.counter sup g.nodes) :=
      List.mem_map_of_mem _ hx
    rw [keysOf_markSuperseded] at hxk
    have := h _ hxk
    simp only [beq_iff_eq]
    omega
  unfold addNode dictInsert
  simp only [hany, Bool.false_eq_true, if_false]
  unfold keysOf
  rw [List.map_append]
  rw [show List.map Node.node_id (markSuperseded g.counter sup g.nodes)
      = List.map Node.node_id g.nodes from keysOf_markSuperseded g.counter sup g.nodes]
  rfl

lemma foldl_addStep_split : ∀ (reqs : List AddReq) (g : Graph) (acc : List Nat),
    reqs.foldl addStep (g, acc)
      = ((reqs.foldl addStep (g, [])).1, acc ++ (reqs.foldl addStep (g, [])).2) := by
  intro reqs
  induction reqs with
  | nil => intro g acc; simp
  | cons r rs ih =>
    intro g acc
    simp only [List.foldl_cons]
    have hstep : ∀ ac : List Nat, addStep (g, ac) r
        = ((addNode g r.now r.kind r.thought r.related r.tags r.participant
              r.supersedes).1,
            ac ++ [(addNode g r.now r.kind r.thought r.related r.tags r.participant
              r.supersedes).2.node_id]) := fun ac => rfl
    rw [hstep acc, hstep []]
    rw [ih (addNode g r.now r.kind r.thought r.related r.tags r.participant
          r.supersedes).1
        (acc ++ [(addNode g r.now r.kind r.thought r.related r.tags r.participant
          r.supersedes).2.node_id]),
      ih (addNode g r.now r.kind r.thought r.related r.tags r.participant
          r.supersedes).1
        ([] ++ [(addNode g r.now r.kind r.thought r.related r.tags r.participant
          r.supersedes).2.node_id])]
    simp

lemma runAdds_spec : ∀ (reqs : List AddReq) (g : Graph),
    (∀ i ∈ keysOf g.nodes, i < g.counter) →
    (runAdds g reqs).2 = List.range' g.counter reqs.length ∧
      keysOf (runAdds g reqs).1.nodes
        = keysOf g.nodes ++ List.range' g.counter reqs.length ∧
      (runAdds g reqs).1.counter = g.counter + reqs.length := by
  intro reqs
  induction reqs with
  | nil => intro g _; exact ⟨rfl, by simp [runAdds], rfl⟩
  | cons r rs ih =>
    intro g h
    have hpkeys : keysOf (addNode g r.now r.kind r.thought r.related r.tags
        r.participant r.supersedes).1.nodes = keysOf g.nodes ++ [g.counter] :=
      addNode_keys g r.now r.kind r.thought r.related r.tags r.participant
        r.supersedes h
    have hpc : (addNode g r.now r.kind r.thought r.related r.tags r.participant
        r.supersedes).1.counter = g.counter + 1 := rfl
    have hinv : ∀ i ∈ keysOf (addNode g r.now r.kind r.thought r.related r.tags
        r.participant r.supersedes).1.nodes,
        i < (addNode g r.now r.kind r.thought r.related r.tags r.participant
          r.supersedes).1.counter := by
      rw [hpkeys, hpc]
      intro i hi
      rcases List.mem_append.mp hi with hi | hi
      · have := h i hi; omega
      · simp only [List.mem_singleton] at hi; omega
    obtain ⟨ih1, ih2, ih3⟩ := ih (addNode g r.now r.kind r.thought r.related r.tags
        r.participant r.supersedes).1 hinv
    have hrun : runAdds g (r :: rs)
        = ((runAdds (addNode g r.now r.kind r.thought r.related r.tags
              r.participant r.supersedes).1 rs).1,
            [g.counter] ++ (runAdds (addNode g r.now r.kind r.thought r.related
              r.tags r.participant r.supersedes).1 rs).2) := by
      unfold runAdds
      simp only [List.foldl_cons]
      have hstep : addStep (g, ([] : List Nat)) r
          = ((addNode g r.now r.kind r.thought r.related r.tags r.participant
                r.supersedes).1,
              [] ++ [(addNode g r.now r.kind r.thought r.related r.tags
                r.participant r.supersedes).2.node_id]) := rfl
      rw [hstep]
      exact foldl_addStep_split rs _ _
    refine ⟨?_, ?_, ?_⟩
    · rw [hrun]
      simp only
      rw [ih1, hpc, List.length_cons, List.range'_succ]
      rfl
    · rw [hrun]
      simp only
      rw [ih2, hpkeys, hpc, List.length_cons, List.range'_succ]
      simp
    · rw [hrun]
      simp only
      rw [ih3, hpc, List.length_cons]
      omega

lemma fromDict_toDict_nodes (g : Graph) : (fromDict (toDict g)).nodes = g.nodes := by
  simp [fromDict, toDict, List.map_map, Function.comp_def]

lemma foldl_max_range' : ∀ n : Nat, (List.range' 1 n).foldl max 0 = n := by
  intro n
  induction n with
  | zero => rfl
  | succ k ih =>
    rw [List.range'_concat, List.foldl_append, ih]
    simp only [List.foldl_cons, List.foldl_nil]
    omega

lemma fromDict_counter_of_range (g : Graph) (n : Nat)
    (hk : keysOf g.nodes = List.range' 1 n) :
    (fromDict (toDict g)).counter = n + 1 := by
  unfold fromDict
  cases n with
  | zero =>
    have hnil : g.nodes = [] := by
      have : keysOf g.nodes = [] := hk
      unfold keysOf at this
      exact List.map_eq_nil_iff.mp this
    simp [toDict, hnil]
  | succ k =>
    have hne : g.nodes ≠ [] := by
      intro hnil
      rw [hnil] at hk
      simp [keysOf, List.range'_succ] at hk
    have hempty : (toDict g).nodes.isEmpty = false := by
      apply List.isEmpty_eq_false.mpr
      simp only [toDict, ne_eq, List.map_eq_nil_iff]
      exact hne
    simp only [hempty, Bool.false_eq_true, if_false]
    have hmax : maxKey (toDict g).nodes = k + 1 := by
      unfold maxKey toDict
      simp only [List.map_map]
      have : (g.nodes.map (Prod.fst ∘ fun n => (n.node_id, n))) = keysOf g.nodes := rfl
      rw [this, hk]
      exact foldl_max_range' (k + 1)
    rw [hmax]

lemma range'_append_one (s n m : Nat) :
    List.range' s n ++ List.range' (s + n) m = List.range' s (n + m) := by
  induction n generalizing s with
  | zero => simp
  | succ k ih =>
    rw [List.range'_succ, show k + 1 + m = (k + m) + 1 from by omega,
      List.range'_succ]
    simp only [List.cons_append]
    rw [show s + (k + 1) = (s + 1) + k from by omega]
    rw [ih (s + 1)]

/-- Claim C3: node ids returned by a sequence of `add_node` calls on one
graph instance are strictly increasing and never repeat, also when the
sequence is interrupted by a `to_dict`/`from_dict` save-and-reload:
`from_dict` reseeds the allocator to one past the maximum restored id. -/
theorem add_node_ids_monotonic (s : String) (t : Nat) (a b : List AddReq) :
    List.Pairwise (· < ·)
      ((runAdds (initGraph s t) a).2 ++
        (runAdds (fromDict (toDict (runAdds (initGraph s t) a).1)) b).2) ∧
      ((runAdds (initGraph s t) a).2 ++
        (runAdds (fromDict (toDict (runAdds (initGraph s t) a).1)) b).2).Nodup := by
  obtain ⟨hi1, hk1, hc1⟩ := runAdds_spec a (initGraph s t)
    (by intro i hi; simp [initGraph, keysOf] at hi)
  have hk1' : keysOf (runAdds (initGraph s t) a).1.nodes = List.range' 1 a.length := by
    rw [hk1]
    simp [initGraph, keysOf]
  have hg2nodes := fromDict_toDict_nodes (runAdds (initGraph s t) a).1
  have hg2counter := fromDict_counter_of_range (runAdds (initGraph s t) a).1
    a.length hk1'
  have hinv2 : ∀ i ∈ keysOf (fromDict (toDict (runAdds (initGraph s t) a).1)).nodes,
      i < (fromDict (toDict (runAdds (initGraph s t) a).1)).counter := by
    intro i hi
    rw [show keysOf (fromDict (toDict (runAdds (initGraph s t) a).1)).nodes
        = keysOf (runAdds (initGraph s t) a).1.nodes from by rw [hg2nodes]] at hi
    rw [hk1'] at hi
    rw [hg2counter]
    have := List.mem_range'_1.mp hi
    omega
  obtain ⟨hi2, _, _⟩ := runAdds_spec b (fromDict (toDict (runAdds (initGraph s t) a).1))
    hinv2
  rw [hi1, hi2, hg2counter]
  have hcat : List.range' 1 a.length ++ List.range' (a.length + 1) b.length
      = List.range' 1 (a.length + b.length) := by
    rw [show a.length + 1 = 1 + a.length from by omega]
    exact range'_append_one 1 a.length b.length
  have hc1' : (initGraph s t).counter = 1 := rfl
  rw [hc1', hcat]
  exact ⟨List.pairwise_lt_range' 1 (a.length + b.length),
    List.nodup_range' 1 (a.length + b.length)⟩

lemma foldl_phase1Step_split (now : Nat) (rel : List Nat) (tags : List String)
    (part : String) :
    ∀ (ns : List PatchNode) (g : Graph) (acc : List (String × Nat)),
      ns.foldl (phase1Step now rel tags part) (g, acc)
        = ((ns.foldl (phase1Step now rel tags part) (g, [])).1,
            acc ++ (ns.foldl (phase1Step now rel tags part) (g, [])).2) := by
  intro ns
  induction ns with
  | nil => intro g acc; simp
  | cons pn rest ih =>
    intro g acc
    simp only [List.foldl_cons]
    have hstep : ∀ ac : List (String × Nat), phase1Step now rel tags part (g, ac) pn
        = ((addNode g now pn.kind pn.thought rel tags part []).1,
            ac ++ [(pn.tmp_id,
              (addNode g now pn.kind pn.thought rel tags part []).2.node_id)]) :=
      fun ac => rfl
    rw [hstep acc, hstep []]
    rw [ih (addNode g now pn.kind pn.thought rel tags part []).1
        (acc ++ [(pn.tmp_id,
          (addNode g now pn.kind pn.thought rel tags part []).2.node_id)]),
      ih (addNode g now pn.kind pn.thought rel tags part []).1
        ([] ++ [(pn.tmp_id,
          (addNode g now pn.kind pn.thought rel tags part []).2.node_id)])]
    simp

lemma phase1_spec (now : Nat) (rel : List Nat) (tags : List String) (part : String) :
    ∀ (ns : List PatchNode) (g : Graph),
      (∀ i ∈ keysOf g.nodes, i < g.counter) →
      keysOf (ns.foldl (phase1Step now rel tags part) (g, [])).1.nodes
          = keysOf g.nodes ++ List.range' g.counter ns.length ∧
        (ns.foldl (phase1Step now rel tags part) (g, [])).1.counter
          = g.counter + ns.length ∧
        (ns.foldl (phase1Step now rel tags part) (g, [])).1.edges = g.edges := by
  intro ns
  induction ns with
  | nil => intro g _; exact ⟨by simp, rfl, rfl⟩
  | cons pn rest ih =>
    intro g h
    have hpkeys : keysOf (addNode g now pn.kind pn.thought rel tags part []).1.nodes
        = keysOf g.nodes ++ [g.counter] :=
      addNode_keys g now pn.kind pn.thought rel tags part [] h
    have hpc : (addNode g now pn.kind pn.thought rel tags part []).1.counter
        = g.counter + 1 := rfl
    have hpe : (addNode g now pn.kind pn.thought rel tags part []).1.edges
        = g.edges := rfl
    have hinv : ∀ i ∈ keysOf (addNode g now pn.kind pn.thought rel tags part []).1.nodes,
        i < (addNode g now pn.kind pn.thought rel tags part []).1.counter := by
      rw [hpkeys, hpc]
      intro i hi
      rcases List.mem_append.mp hi with hi | hi
      · have := h i hi; omega
      · simp only [List.mem_singleton] at hi; omega
    obtain ⟨ih1, ih2, ih3⟩ := ih (addNode g now pn.kind pn.thought rel tags part []).1
      hinv
    have hrun : (pn :: rest).foldl (phase1Step now rel tags part) (g, [])
        = ((rest.foldl (phase1Step now rel tags part)
              ((addNode g now pn.kind pn.thought rel tags part []).1, [])).1,
            [(pn.tmp_id, g.counter)] ++
              (rest.foldl (phase1Step now rel tags part)
                ((addNode g now pn.kind pn.thought rel tags part []).1, [])).2) := by
      simp only [List.foldl_cons]
      have hstep : phase1Step now rel tags part (g, ([] : List (String × Nat))) pn
          = ((addNode g now pn.kind pn.thought rel tags part []).1,
              [] ++ [(pn.tmp_id,
                (addNode g now pn.kind pn.thought rel tags part []).2.node_id)]) := rfl
      rw [hstep]
      exact foldl_phase1Step_split now rel tags part rest _ _
    refine ⟨?_, ?_, ?_⟩
    · rw [hrun]
      simp only
      rw [ih1, hpkeys, hpc, List.length_cons, List.range'_succ]
      simp
    · rw [hrun]
      simp only
      rw [ih2, hpc, List.length_cons]
      omega
    · rw [hrun]
      simp only
      rw [ih3, hpe]

lemma addEdge_nodes (g : Graph) (now src dst : Nat) (r cb : String) :
    (addEdge g now src dst r cb).1.nodes = g.nodes := by
  unfold addEdge
  split <;> rfl

lemma addEdge_counter (g : Graph) (now src dst : Nat) (r cb : String) :
    (addEdge g now src dst r cb).1.counter = g.counter := by
  unfold addEdge
  split <;> rfl

lemma foldl_edgeStep_stuck (pyInt : String → Option Nat) (now : Nat)
    (part : String) (m : List (String × Nat)) :
    ∀ (pes : List PatchEdge) (g : Graph) (er : PyErr),
      pes.foldl (edgeStep pyInt now part m) (g, some er) = (g, some er) := by
  intro pes
  induction pes with
  | nil => intro g er; rfl
  | cons pe rest ih =>
    intro g er
    simp only [List.foldl_cons]
    rw [show edgeStep pyInt now part m (g, some er) pe = (g, some er) from rfl]
    exact ih g er

lemma edgeStep_fst (pyInt : String → Option Nat) (now : Nat) (part : String)
    (m : List (String × Nat)) (acc : Graph × Option PyErr) (pe : PatchEdge) :
    (edgeStep pyInt now part m acc pe).1.nodes = acc.1.nodes ∧
      (edgeStep pyInt now part m acc pe).1.counter = acc.1.counter := by
  unfold edgeStep
  cases h2 : acc.2 with
  | some er => exact ⟨rfl, rfl⟩
  | none =>
    cases hsrc : resolveId pyInt m pe.src with
    | none => exact ⟨rfl, rfl⟩
    | some s =>
      cases hdst : resolveId pyInt m pe.dst with
      | none => exact ⟨rfl, rfl⟩
      | some d => exact ⟨addEdge_nodes _ _ _ _ _ _, addEdge_counter _ _ _ _ _ _⟩

lemma foldl_edgeStep_fst (pyInt : String → Option Nat) (now : Nat) (part : String)
    (m : List (String × Nat)) :
    ∀ (pes : List PatchEdge) (acc : Graph × Option PyErr),
      (pes.foldl (edgeStep pyInt now part m) acc).1.nodes = acc.1.nodes ∧
        (pes.foldl (edgeStep pyInt now part m) acc).1.counter = acc.1.counter := by
  intro pes
  induction pes with
  | nil => intro acc; exact ⟨rfl, rfl⟩
  | cons pe rest ih =>
    intro acc
    simp only [List.foldl_cons]
    obtain ⟨i1, i2⟩ := ih (edgeStep pyInt now part m acc pe)
    obtain ⟨c1, c2⟩ := edgeStep_fst pyInt now part m acc pe
    exact ⟨by rw [i1, c1], by rw [i2, c2]⟩

lemma addEdge_edges_extend (g : Graph) (now src dst : Nat) (r cb : String) :
    ∃ ex, (addEdge g now src dst r cb).1.edges = g.edges ++ ex := by
  unfold addEdge
  split
  · exact ⟨_, rfl⟩
  · exact ⟨[], by simp⟩

lemma edgeStep_edges_extend (pyInt : String → Option Nat) (now : Nat)
    (part : String) (m : List (String × Nat)) (acc : Graph × Option PyErr)
    (pe : PatchEdge) :
    ∃ ex, (edgeStep pyInt now part m acc pe).1.edges = acc.1.edges ++ ex := by
  unfold edgeStep
  cases h2 : acc.2 with
  | some er => exact ⟨[], by simp⟩
  | none =>
    cases hsrc : resolveId pyInt m pe.src with
    | none => exact ⟨[], by simp⟩
    | some s =>
      cases hdst : resolveId pyInt m pe.dst with
      | none => exact ⟨[], by simp⟩
      | some d => exact addEdge_edges_extend acc.1 now s d pe.rationale part

lemma foldl_edgeStep_edges_extend (pyInt : String → Option Nat) (now : Nat)
    (part : String) (m : List (String × Nat)) :
    ∀ (pes : List PatchEdge) (acc : Graph × Option PyErr),
      ∃ ex, (pes.foldl (edgeStep pyInt now part m) acc).1.edges
        = acc.1.edges ++ ex := by
  intro pes
  induction pes with
  | nil => intro acc; exact ⟨[], by simp⟩
  | cons pe rest ih =>
    intro acc
    simp only [List.foldl_cons]
    obtain ⟨ex1, h1⟩ := edgeStep_edges_extend pyInt now part m acc pe
    obtain ⟨ex2, h2⟩ := ih (edgeStep pyInt now part m acc pe)
    exact ⟨ex1 ++ ex2, by rw [h2, h1, List.append_assoc]⟩

/-- An `add_edges` entry on which `_apply_patch_temporal` raises: an
endpoint that neither names a batch temporary id nor is an integer literal
under the `int(...)` semantics `pyInt`, or a resolved pair with an endpoint
unknown to the store. -/
def edgeFails (pyInt : String → Option Nat) (g1 : Graph)
    (m : List (String × Nat)) (e : PatchEdge) : Bool :=
  match resolveId pyInt m e.src with
  | none => true
  | some s =>
    match resolveId pyInt m e.dst with
    | none => true
    | some d => !(hasNode g1 s && hasNode g1 d)

lemma edgeStep_of_fails (pyInt : String → Option Nat) (now : Nat) (part : String)
    (m : List (String × Nat)) (g1 : Graph) (pe : PatchEdge)
    (hb : edgeFails pyInt g1 m pe = true) :
    edgeStep pyInt now part m (g1, none) pe = (g1, some .valueError) := by
  unfold edgeFails at hb
  unfold edgeStep
  cases hsrc : resolveId pyInt m pe.src with
  | none => rfl
  | some sv =>
    rw [hsrc] at hb
    cases hdst : resolveId pyInt m pe.dst with
    | none => rfl
    | some dv =>
      rw [hdst] at hb
      simp only [Bool.not_eq_true'] at hb
      have haddE : addEdge g1 now sv dv pe.rationale part
          = (g1, .error .valueError) := by
        unfold addEdge
        rw [hb]
        simp
      simp only [haddE]

/-- Claim C7 counterexample: a batch with one node (`tmp_id="t1"`) and one
edge whose `dst` `"t2"` was never created raises `ValueError` (with Python
`int("t2")` raising, as `parsePyInt` models for this digit-and-letter
string), but the batch node remains in the store: application is not
atomic. -/
theorem apply_patch_not_atomic_cex :
    (applyPatchTemporal parsePyInt (initGraph "s" 0) 7
        ⟨[⟨"t1", "evidence", "th"⟩], [⟨"t1", "t2", ""⟩]⟩ [] [] "agent").2
      = some .valueError ∧
    ((applyPatchTemporal parsePyInt (initGraph "s" 0) 7
        ⟨[⟨"t1", "evidence", "th"⟩], [⟨"t1", "t2", ""⟩]⟩ [] [] "agent").1.nodes.map
      Node.node_id) = [1] :=
  ⟨by decide, by decide⟩

/-- Claim C7 (amended): when an `add_edges` entry of a batch — after any
prefix of entries that applied without raising — fails to resolve (or
resolves to an unknown id), `_apply_patch_temporal` raises `ValueError`;
no placeholder node is invented and the failing and later entries add
nothing, but the batch is not rolled back: the store keeps exactly the old
node keys plus one fresh id per batch node, and its edge list still extends
the original one, so the edges applied before the failing entry remain.
Stated for every `int(...)` semantics `pyInt`. -/
theorem apply_patch_failing_edge (pyInt : String → Option Nat) (g : Graph)
    (now : Nat) (patch : Patch) (rel : List Nat) (tags : List String)
    (part : String) (pre : List PatchEdge) (e0 : PatchEdge)
    (rest : List PatchEdge)
    (hedges : patch.add_edges = pre ++ e0 :: rest)
    (hcnt : ∀ i ∈ keysOf g.nodes, i < g.counter)
    (hpre : (pre.foldl (edgeStep pyInt now part (phase1 g now patch rel tags part).2)
        ((phase1 g now patch rel tags part).1, none)).2 = none)
    (hbad : edgeFails pyInt
        (pre.foldl (edgeStep pyInt now part (phase1 g now patch rel tags part).2)
          ((phase1 g now patch rel tags part).1, none)).1
        (phase1 g now patch rel tags part).2 e0 = true) :
    applyPatchTemporal pyInt g now patch rel tags part
        = ((pre.foldl (edgeStep pyInt now part (phase1 g now patch rel tags part).2)
            ((phase1 g now patch rel tags part).1, none)).1, some .valueError) ∧
      keysOf (pre.foldl (edgeStep pyInt now part (phase1 g now patch rel tags part).2)
          ((phase1 g now patch rel tags part).1, none)).1.nodes
        = keysOf g.nodes ++ List.range' g.counter patch.add_nodes.length ∧
      ∃ applied,
        (pre.foldl (edgeStep pyInt now part (phase1 g now patch rel tags part).2)
            ((phase1 g now patch rel tags part).1, none)).1.edges
          = g.edges ++ applied := by
  obtain ⟨hk, hc, he⟩ := phase1_spec now rel tags part patch.add_nodes g hcnt
  obtain ⟨hPn, hPc⟩ := foldl_edgeStep_fst pyInt now part
    (phase1 g now patch rel tags part).2 pre
    ((phase1 g now patch rel tags part).1, none)
  refine ⟨?_, ?_, ?_⟩
  · unfold applyPatchTemporal
    rw [hedges, List.foldl_append]
    have hps : pre.foldl (edgeStep pyInt now part (phase1 g now patch rel tags part).2)
        ((phase1 g now patch rel tags part).1, none)
        = ((pre.foldl (edgeStep pyInt now part (phase1 g now patch rel tags part).2)
            ((phase1 g now patch rel tags part).1, none)).1, none) :=
      Prod.ext rfl hpre
    rw [hps]
    simp only [List.foldl_cons]
    rw [edgeStep_of_fails pyInt now part (phase1 g now patch rel tags part).2
      (pre.foldl (edgeStep pyInt now part (phase1 g now patch rel tags part).2)
        ((phase1 g now patch rel tags part).1, none)).1 e0 hbad]
    exact foldl_edgeStep_stuck pyInt now part
      (phase1 g now patch rel tags part).2 rest _ _
  · rw [hPn]
    exact hk
  · obtain ⟨ex, hex⟩ := foldl_edgeStep_edges_extend pyInt now part
      (phase1 g now patch rel tags part).2 pre
      ((phase1 g now patch rel tags part).1, none)
    refine ⟨ex, ?_⟩
    rw [hex]
    rw [show ((phase1 g now patch rel tags part).1,
        (none : Option PyErr)).1.edges = g.edges from he]

/-- The batch for the witness below: two nodes, a first edge that applies
cleanly and a second whose `dst` `"t3"` was never created. -/
def wPatch : Patch :=
  ⟨[⟨"t1", "evidence", "x"⟩, ⟨"t2", "evidence", "y"⟩],
    [⟨"t1", "t2", "ok"⟩, ⟨"t1", "t3", "bad"⟩]⟩

/-- Witness for `apply_patch_failing_edge` at a concrete batch whose first
edge succeeds and whose second edge fails. -/
theorem apply_patch_failing_edge_witness :
    applyPatchTemporal parsePyInt (initGraph "w" 0) 3 wPatch [] [] "bob"
        = (([(⟨"t1", "t2", "ok"⟩ : PatchEdge)].foldl
            (edgeStep parsePyInt 3 "bob" (phase1 (initGraph "w" 0) 3 wPatch [] [] "bob").2)
            ((phase1 (initGraph "w" 0) 3 wPatch [] [] "bob").1, none)).1,
          some .valueError) ∧
      keysOf ([(⟨"t1", "t2", "ok"⟩ : PatchEdge)].foldl
            (edgeStep parsePyInt 3 "bob" (phase1 (initGraph "w" 0) 3 wPatch [] [] "bob").2)
            ((phase1 (initGraph "w" 0) 3 wPatch [] [] "bob").1, none)).1.nodes
        = keysOf (initGraph "w" 0).nodes ++
            List.range' (initGraph "w" 0).counter wPatch.add_nodes.length ∧
      ∃ applied,
        ([(⟨"t1", "t2", "ok"⟩ : PatchEdge)].foldl
            (edgeStep parsePyInt 3 "bob" (phase1 (initGraph "w" 0) 3 wPatch [] [] "bob").2)
            ((phase1 (initGraph "w" 0) 3 wPatch [] [] "bob").1, none)).1.edges
          = (initGraph "w" 0).edges ++ applied :=
  apply_patch_failing_edge parsePyInt (initGraph "w" 0) 3 wPatch [] [] "bob"
    [⟨"t1", "t2", "ok"⟩] ⟨"t1", "t3", "bad"⟩ [] rfl (by decide) (by decide)
    (by decide)

lemma copyStep_fst (now old newId : Nat) (part : String)
    (acc : Graph × Option PyErr) (e : Edge) :
    (copyStep now old newId part acc e).1.nodes = acc.1.nodes ∧
      (copyStep now old newId part acc e).1.counter = acc.1.counter := by
  unfold copyStep
  cases h2 : acc.2 with
  | some er => exact ⟨rfl, rfl⟩
  | none =>
    by_cases hd : (e.dst == old) = true
    · simp only [hd, if_true]
      exact ⟨addEdge_nodes _ _ _ _ _ _, addEdge_counter _ _ _ _ _ _⟩
    · have hd' : (e.dst == old) = false := by simpa using hd
      simp [hd']

lemma foldl_copyStep_fst (now old newId : Nat) (part : String) :
    ∀ (es : List Edge) (acc : Graph × Option PyErr),
      (es.foldl (copyStep now old newId part) acc).1.nodes = acc.1.nodes ∧
        (es.foldl (copyStep now old newId part) acc).1.counter = acc.1.counter := by
  intro es
  induction es with
  | nil => intro acc; exact ⟨rfl, rfl⟩
  | cons e rest ih =>
    intro acc
    simp only [List.foldl_cons]
    obtain ⟨i1, i2⟩ := ih (copyStep now old newId part acc e)
    obtain ⟨c1, c2⟩ := copyStep_fst now old newId part acc e
    exact ⟨by rw [i1, c1], by rw [i2, c2]⟩

lemma mem_markSuperseded {newId : Nat} {ids : List Nat} {l : List Node} {x : Node}
    (hx : x ∈ markSuperseded newId ids l) :
    (x.node_id ∈ ids ∧ x.superseded_by = some newId) ∨
      (x.node_id ∉ ids ∧ x ∈ l) := by
  unfold markSuperseded at hx
  obtain ⟨n, hn, hnx⟩ := List.mem_map.mp hx
  by_cases h : n.node_id ∈ ids
  · left
    rw [if_pos h] at hnx
    rw [← hnx]
    exact ⟨h, rfl⟩
  · right
    rw [if_neg h] at hnx
    rw [← hnx]
    exact ⟨h, hn⟩

lemma mem_dictInsert {l : List Node} {x y : Node} (hy : y ∈ dictInsert l x) :
    y = x ∨ y ∈ l := by
  unfold dictInsert at hy
  split at hy
  · obtain ⟨n, hn, hny⟩ := List.mem_map.mp hy
    by_cases h : (n.node_id == x.node_id) = true
    · rw [if_pos h] at hny
      left
      exact hny.symm
    · rw [if_neg h] at hny
      right
      rw [← hny]
      exact hn
  · rcases List.mem_append.mp hy with h | h
    · right; exact h
    · left; simpa using h

lemma mem_addNode_nodes {g : Graph} {now : Nat} {k th : String} {rel : List Nat}
    {tags : List String} {part : String} {sup : List Nat} {x : Node}
    (hx : x ∈ (addNode g now k th rel tags part sup).1.nodes) :
    x.node_id = g.counter ∨ (x.node_id ∈ sup ∧ x.superseded_by = some g.counter) ∨
      (x.node_id ∉ sup ∧ x ∈ g.nodes) := by
  unfold addNode at hx
  simp only at hx
  rcases mem_dictInsert hx with h | h
  · left
    rw [h]
  · rcases mem_markSuperseded h with h | h
    · right; left; exact h
    · right; right; exact h

/-- A node id that has been retired: it is below the allocator and every
stored node carrying it has a set `superseded_by` pointer. -/
def idRetired (i : Nat) (g : Graph) : Prop :=
  i < g.counter ∧ ∀ n ∈ g.nodes, n.node_id = i → n.superseded_by ≠ none

lemma idRetired_addNode {i : Nat} {g : Graph} (h : idRetired i g)
    (now : Nat) (k th : String) (rel : List Nat) (tags : List String)
    (part : String) (sup : List Nat) :
    idRetired i (addNode g now k th rel tags part sup).1 := by
  obtain ⟨hlt, hret⟩ := h
  constructor
  · show i < g.counter + 1
    omega
  · intro n hn hid
    rcases mem_addNode_nodes hn with h | ⟨_, hsb⟩ | ⟨_, hmem⟩
    · omega
    · rw [hsb]
      simp
    · exact hret n hmem hid

lemma supersedeNode_fst (g : Graph) (now old : Nat) (th part : String) :
    ((supersedeNode g now old th part).1.nodes = g.nodes ∧
        (supersedeNode g now old th part).1.counter = g.counter) ∨
      (∃ oldN, lookupNode g old = some oldN ∧
        (supersedeNode g now old th part).1.nodes
          = (addNode g now oldN.kind th [] oldN.tags part [old]).1.nodes ∧
        (supersedeNode g now old th part).1.counter
          = (addNode g now oldN.kind th [] oldN.tags part [old]).1.counter) := by
  unfold supersedeNode
  cases hl : lookupNode g old with
  | none => left; exact ⟨rfl, rfl⟩
  | some oldN =>
    right
    refine ⟨oldN, rfl, ?_, ?_⟩
    · obtain ⟨h1, _⟩ := foldl_copyStep_fst now old
        (addNode g now oldN.kind th [] oldN.tags part [old]).2.node_id part
        g.edges ((addNode g now oldN.kind th [] oldN.tags part [old]).1, none)
      cases hst : (g.edges.foldl (copyStep now old
          (addNode g now oldN.kind th [] oldN.tags part [old]).2.node_id part)
          ((addNode g now oldN.kind th [] oldN.tags part [old]).1, none)).2 <;>
        simp only [hst] <;> exact h1
    · obtain ⟨_, h2⟩ := foldl_copyStep_fst now old
        (addNode g now oldN.kind th [] oldN.tags part [old]).2.node_id part
        g.edges ((addNode g now oldN.kind th [] oldN.tags part [old]).1, none)
      cases hst : (g.edges.foldl (copyStep now old
          (addNode g now oldN.kind th [] oldN.tags part [old]).2.node_id part)
          ((addNode g now oldN.kind th [] oldN.tags part [old]).1, none)).2 <;>
        simp only [hst] <;> exact h2

lemma idRetired_applyOp {i : Nat} {g : Graph} (h : idRetired i g) (op : Op) :
    idRetired i (applyOp g op) := by
  cases op with
  | addNode now k th rel tags part sup =>
    exact idRetired_addNode h now k th rel tags part sup
  | addEdge now src dst r cb =>
    constructor
    · rw [show (applyOp g (.addEdge now src dst r cb)).counter = g.counter from
        addEdge_counter g now src dst r cb]
      exact h.1
    · intro n hn
      rw [show (applyOp g (.addEdge now src dst r cb)).nodes = g.nodes from
        addEdge_nodes g now src dst r cb] at hn
      exact h.2 n hn
  | supersede now old th part =>
    rcases supersedeNode_fst g now old th part with ⟨hn, hc⟩ | ⟨oldN, _, hn, hc⟩
    · constructor
      · rw [show (applyOp g (.supersede now old th part)).counter = g.counter
          from hc]
        exact h.1
      · intro n hmem
        rw [show (applyOp g (.supersede now old th part)).nodes = g.nodes
          from hn] at hmem
        exact h.2 n hmem
    · have hadd := idRetired_addNode h now oldN.kind th [] oldN.tags part [old]
      constructor
      · rw [show (applyOp g (.supersede now old th part)).counter
            = (addNode g now oldN.kind th [] oldN.tags part [old]).1.counter
          from hc]
        exact hadd.1
      · intro n hmem
        rw [show (applyOp g (.supersede now old th part)).nodes
            = (addNode g now oldN.kind th [] oldN.tags part [old]).1.nodes
          from hn] at hmem
        exact hadd.2 n hmem

lemma idRetired_applyOps (i : Nat) :
    ∀ (ops : List Op) (g : Graph), idRetired i g → idRetired i (applyOps g ops) := by
  intro ops
  induction ops with
  | nil => intro g h; exact h
  | cons op rest ih =>
    intro g h
    exact ih (applyOp g op) (idRetired_applyOp h op)

lemma find?_markSuperseded (k newId : Nat) (ids : List Nat) :
    ∀ (l : List Node) (n0 : Node),
      List.find? (fun n => n.node_id == k) l = some n0 → k ∈ ids →
      List.find? (fun n => n.node_id == k) (markSuperseded newId ids l)
        = some { n0 with superseded_by := some newId } := by
  intro l
  induction l with
  | nil => intro n0 h _; simp at h
  | cons x xs ih =>
    intro n0 h hk
    unfold markSuperseded
    simp only [List.map_cons]
    by_cases hx : (x.node_id == k) = true
    · have hn0 : x = n0 := by
        simp only [List.find?_cons, hx] at h
        simpa using h
      have hkeq : x.node_id = k := by simpa using hx
      have hmem : x.node_id ∈ ids := by rw [hkeq]; exact hk
      rw [if_pos hmem]
      simp only [List.find?_cons, hx]
      rw [hn0]
    · have hx' : (x.node_id == k) = false := by simpa using hx
      simp only [List.find?_cons, hx'] at h
      by_cases hm : x.node_id ∈ ids
      · rw [if_pos hm]
        simp only [List.find?_cons, hx']
        exact ih n0 h hk
      · rw [if_neg hm]
        simp only [List.find?_cons, hx']
        exact ih n0 h hk

lemma lookupNode_addNode_superseded {g : Graph} {now : Nat} {k th : String}
    {rel : List Nat} {tags : List String} {part : String} {old_id : Nat} {oldN : Node}
    (hcnt : ∀ i ∈ keysOf g.nodes, i < g.counter)
    (hl : lookupNode g old_id = some oldN) :
    List.find? (fun n => n.node_id == old_id)
        (addNode g now k th rel tags part [old_id]).1.nodes
      = some { oldN with superseded_by := some g.counter } := by
  have hmark := find?_markSuperseded old_id g.counter [old_id] g.nodes oldN hl
    (by simp)
  have hany : (markSuperseded g.counter [old_id] g.nodes).any
      (fun n => n.node_id == g.counter) = false := by
    rw [List.any_eq_false]
    intro x hx
    have hxk : x.node_id ∈ keysOf (markSuperseded g.counter [old_id] g.nodes) :=
      List.mem_map_of_mem _ hx
    rw [keysOf_markSuperseded] at hxk
    have := hcnt _ hxk
    simp only [beq_iff_eq]
    omega
  show List.find? (fun n => n.node_id == old_id)
      (dictInsert (markSuperseded g.counter [old_id] g.nodes) _) = _
  unfold dictInsert
  simp only [hany, Bool.false_eq_true, if_false]
  rw [List.find?_append, hmark]
  rfl

/-- Claim C4: after `supersede_node(A.id, content, participant)` returns a
node B on a graph whose stored ids are all below the allocator, the stored
node at A's id has `superseded_by = B.id`, B's `supersedes` contains A's id,
and no `get_active_nodes()` result — now or after any further sequence of
store operations — contains a node with A's id. -/
theorem supersede_node_spec (g : Graph) (now old_id : Nat) (th p : String)
    (g2 : Graph) (B : Node)
    (hcnt : ∀ i ∈ keysOf g.nodes, i < g.counter)
    (hr : supersedeNode g now old_id th p = (g2, .ok B)) :
    (∃ A2, lookupNode g2 old_id = some A2 ∧ A2.superseded_by = some B.node_id) ∧
      old_id ∈ B.supersedes ∧
      ∀ (ops : List Op) (n : Node), n ∈ getActiveNodes (applyOps g2 ops) →
        n.node_id ≠ old_id := by
  unfold supersedeNode at hr
  cases hl : lookupNode g old_id with
  | none =>
    rw [hl] at hr
    simp at hr
  | some oldN =>
    rw [hl] at hr
    simp only at hr
    cases hst : (g.edges.foldl (copyStep now old_id
        (addNode g now oldN.kind th [] oldN.tags p [old_id]).2.node_id p)
        ((addNode g now oldN.kind th [] oldN.tags p [old_id]).1, none)).2 with
    | some er =>
      rw [hst] at hr
      simp at hr
    | none =>
      rw [hst] at hr
      simp only [Prod.mk.injEq, Except.ok.injEq] at hr
      obtain ⟨hg2, hB⟩ := hr
      obtain ⟨hfn, hfc⟩ := foldl_copyStep_fst now old_id
        (addNode g now oldN.kind th [] oldN.tags p [old_id]).2.node_id p
        g.edges ((addNode g now oldN.kind th [] oldN.tags p [old_id]).1, none)
      have hnodes : g2.nodes
          = (addNode g now oldN.kind th [] oldN.tags p [old_id]).1.nodes := by
        rw [← hg2]
        exact hfn
      have hcounter : g2.counter = g.counter + 1 := by
        rw [← hg2]
        exact hfc
      have holdmem : oldN ∈ g.nodes := List.mem_of_find?_eq_some hl
      have holdid : oldN.node_id = old_id := by
        have := List.find?_some hl
        simpa using this
      have holdlt : old_id < g.counter := by
        have := hcnt oldN.node_id (List.mem_map_of_mem _ holdmem)
        omega
      have hBid : B.node_id = g.counter := by
        rw [← hB]
        rfl
      refine ⟨?_, ?_, ?_⟩
      · refine ⟨{ oldN with superseded_by := some g.counter }, ?_, ?_⟩
        · unfold lookupNode
          rw [hnodes]
          exact lookupNode_addNode_superseded hcnt hl
        · rw [hBid]
      · rw [← hB]
        show old_id ∈ [old_id]
        simp
      · have hret : idRetired old_id g2 := by
          constructor
          · omega
          · intro n hn hid
            rw [hnodes] at hn
            rcases mem_addNode_nodes hn with h | ⟨_, hsb⟩ | ⟨hnot, _⟩
            · omega
            · rw [hsb]
              simp
            · simp only [List.mem_singleton] at hnot
              exact absurd hid hnot
        intro ops n hn hid
        have hP := idRetired_applyOps old_id ops g2 hret
        unfold getActiveNodes at hn
        obtain ⟨hmem, hpred⟩ := List.mem_filter.mp hn
        simp only [Bool.and_eq_true, decide_eq_true_eq] at hpred
        exact hP.2 n hmem hid hpred.2

/-- A two-node graph with one supporting edge, for the supersede witness. -/
def gDemo : Graph :=
  { nodes := [⟨1, "evidence", "a", [], .bool true, 1, "s", 1, [], none, [], "system"⟩,
      ⟨2, "evidence", "b", [], .bool true, 2, "s", 1, [], none, [], "system"⟩],
    edges := [⟨2, 1, "supports", 2, "system"⟩],
    counter := 3, session_id := "s", created_at := 0 }

/-- The node `supersede_node` returns on `gDemo`. -/
def bDemo : Node :=
  ⟨3, "evidence", "new", [], .bool true, 5, "s", 1, [1], none, [], "alice"⟩

/-- Witness for `supersede_node_spec` at a concrete graph. -/
theorem supersede_node_spec_witness :
    (∃ A2, lookupNode (supersedeNode gDemo 5 1 "new" "alice").1 1 = some A2 ∧
        A2.superseded_by = some bDemo.node_id) ∧
      1 ∈ bDemo.supersedes ∧
      ∀ (ops : List Op) (n : Node),
        n ∈ getActiveNodes (applyOps (supersedeNode gDemo 5 1 "new" "alice").1 ops) →
        n.node_id ≠ 1 :=
  supersede_node_spec gDemo 5 1 "new" "alice"
    (supersedeNode gDemo 5 1 "new" "alice").1 bDemo (by decide) rfl

end Temporal

end MemoBrain
